import Mathlib

/-
  Shallow embedding of deepcell_spots/dotnet_losses.py over exact rational
  arithmetic.  Tensors of shape (batch, Ly, Lx, c) are modelled as functions
  Fin b × Fin h × Fin w → Fin c → ℚ.  The floating-point tensor engine is
  replaced by ℚ; index collection (tf.where) is modelled as a row-major
  filtered list, and gather as a map over that list.
-/

namespace DeepcellSpots

/-- Coordinate of a single pixel inside a batch: (batch, y, x). -/
abbrev Idx3 (b h w : ℕ) := Fin b × Fin h × Fin w

/-- Offset tensor of shape (batch, Ly, Lx, 2): channel 0 is delta_y, channel 1 is delta_x. -/
abbrev OffsetT (b h w : ℕ) := Idx3 b h w → Fin 2 → ℚ

/-- Classification tensor of shape (batch, Ly, Lx, n_classes). -/
abbrev ClassT (b h w n : ℕ) := Idx3 b h w → Fin n → ℚ

/-- Quadratic branch of smooth_l1: `0.5 * sigma_squared * regression_diff ** 2`. -/
def quadBranch (sigma_squared r : ℚ) : ℚ := 0.5 * sigma_squared * r ^ 2

/-- Linear branch of smooth_l1: `regression_diff - 0.5 / sigma_squared`. -/
def linBranch (sigma_squared r : ℚ) : ℚ := r - 0.5 / sigma_squared

/-- Elementwise smooth L1 loss of one scalar pair, as computed by `smooth_l1`:
`tf.where(K.less(regression_diff, 1.0 / sigma_squared), 0.5 * sigma_squared * regression_diff ** 2, regression_diff - 0.5 / sigma_squared)`
with `regression_diff = K.abs(y_true - y_pred)` and `sigma_squared = sigma ** 2`. -/
def smooth_l1 (y_true y_pred : ℚ) (sigma : ℚ) : ℚ :=
  let sigma_squared := sigma ^ 2
  let regression_diff := |y_true - y_pred|
  if regression_diff < 1 / sigma_squared then quadBranch sigma_squared regression_diff
  else linBranch sigma_squared regression_diff

/-- The function smooth_l1 applied elementwise to two equal-shaped tensors (any index type),
with no reduction over any axis: the result has the same shape as the inputs. -/
def smooth_l1T {ι : Type} (y_true y_pred : ι → ℚ) (sigma : ℚ) : ι → ℚ :=
  fun i => smooth_l1 (y_true i) (y_pred i) sigma

/-- Loss configuration object of `DotNetLosses.__init__`, with the source defaults. -/
structure DotNetLosses where
  gamma : ℚ := 2.0
  sigma : ℚ := 3.0
  n_classes : ℕ := 2
  focal : Bool := false
  d_pixels : ℚ := 1
  mu : ℚ := 0
  beta : ℚ := 0

/-- Row-major enumeration of all (batch, y, x) coordinates, the order in which
`tf.where` reports the true entries of a boolean tensor. -/
def all_indices (b h w : ℕ) : List (Idx3 b h w) :=
  (List.finRange b).flatMap fun i =>
    (List.finRange h).flatMap fun j =>
      (List.finRange w).map fun k => (i, j, k)

/-- The per-pixel selection predicate of `regression_loss`:
`logical_and(logical_and(K.less_equal(-d, dy), K.less(dy, d)), logical_and(K.less_equal(-d, dx), K.less(dx, d)))`. -/
def near_pt (d dy dx : ℚ) : Bool :=
  (decide (-d ≤ dy) && decide (dy < d)) && (decide (-d ≤ dx) && decide (dx < d))

/-- Embedding of `near_pt_indices = tf.where(logical_and(near_pt_y, near_pt_x))`: the row-major
list of coordinates whose ground-truth offsets pass the selection predicate. -/
def near_pt_indices (d : ℚ) (y_true : OffsetT b h w) : List (Idx3 b h w) :=
  (all_indices b h w).filter fun p => near_pt d (y_true p 0) (y_true p 1)

/-- The tail of `regression_loss` after index collection: gather the true and
predicted offsets at the listed coordinates, apply `smooth_l1` to the delta_y pair
and the delta_x pair, concatenate, sum, and divide by `max(1, number_of_indices)`. -/
def regression_loss_from_indices (sigma : ℚ) (y_true y_pred : OffsetT b h w)
    (idxs : List (Idx3 b h w)) : ℚ :=
  let pixelwise_loss_y := idxs.map fun p => smooth_l1 (y_true p 0) (y_pred p 0) sigma
  let pixelwise_loss_x := idxs.map fun p => smooth_l1 (y_true p 1) (y_pred p 1) sigma
  let normalizer : ℚ := ((max 1 idxs.length : ℕ) : ℚ)
  (pixelwise_loss_y ++ pixelwise_loss_x).sum / normalizer

/-- Method `DotNetLosses.regression_loss`: smooth L1 loss over the offsets of the pixels
selected by `near_pt` with threshold `d = 0.5 + d_pixels`, normalized by the
number of selected pixels (at least 1). -/
def DotNetLosses.regression_loss (self : DotNetLosses)
    (y_true y_pred : OffsetT b h w) : ℚ :=
  let d := 0.5 + self.d_pixels
  regression_loss_from_indices self.sigma y_true y_pred (near_pt_indices d y_true)

/-- Keras `K.mean` of a rank-3 tensor of shape (batch, Ly, Lx): sum of all entries
divided by the number of entries. -/
def meanBHW (f : Idx3 b h w → ℚ) : ℚ :=
  (∑ p : Idx3 b h w, f p) / ((b : ℚ) * h * w)

/-- Keras `K.mean(·, axis=[1, 2])` of one image: spatial mean over height and width. -/
def meanHW (f : Fin h → Fin w → ℚ) : ℚ :=
  (∑ jk : Fin h × Fin w, f jk.1 jk.2) / ((h : ℚ) * w)

/-- Keras `K.mean` of a rank-1 tensor of shape (batch). -/
def meanB (f : Fin b → ℚ) : ℚ := (∑ i : Fin b, f i) / (b : ℚ)

/-- Method `DotNetLosses.classification_loss`.  The external deepcell primitives
`losses.weighted_focal_loss` and `losses.weighted_categorical_crossentropy` are
outside this repository and are taken as opaque arguments; the second returns a
per-pixel tensor which the method reduces with `K.mean`. -/
def DotNetLosses.classification_loss (self : DotNetLosses)
    (weighted_focal_loss : ClassT b h w n → ClassT b h w n → ℚ → ℕ → ℚ)
    (weighted_categorical_crossentropy : ClassT b h w n → ClassT b h w n → ℕ → (Idx3 b h w → ℚ))
    (y_true y_pred : ClassT b h w n) : ℚ :=
  if self.focal then weighted_focal_loss y_true y_pred self.gamma self.n_classes
  else meanBHW (weighted_categorical_crossentropy y_true y_pred self.n_classes)

/-- Keras `K.spatial_2d_padding(·, padding=((1, 1), (1, 1)))`: one row/column of zeros
on each spatial side; interior entry (j+1, k+1) holds the original entry (j, k). -/
def spatial_2d_padding (y : ClassT b h w n) :
    Fin b × Fin (h + 2) × Fin (w + 2) → Fin n → ℚ := fun p c =>
  if hjk : 0 < (p.2.1 : ℕ) ∧ (p.2.1 : ℕ) ≤ h ∧ 0 < (p.2.2 : ℕ) ∧ (p.2.2 : ℕ) ≤ w then
    y (p.1, ⟨(p.2.1 : ℕ) - 1, by omega⟩, ⟨(p.2.2 : ℕ) - 1, by omega⟩) c
  else 0

/-- The unnormalized interaction sum of `classification_loss_regularized`:
`K.sum(y_pred_padded[:, 1:, :, 1] * y_pred_padded[:, :-1, :, 1]) + K.sum(y_pred_padded[:, :, 1:, 1] * y_pred_padded[:, :, :-1, 1])`. -/
def inter_sum (y_pred : ClassT b h w n) (hn : 1 < n) : ℚ :=
  let c1 : Fin n := ⟨1, hn⟩
  let pp := spatial_2d_padding y_pred
  (∑ x : Fin b × Fin (h + 1) × Fin (w + 2),
      pp (x.1, x.2.1.succ, x.2.2) c1 * pp (x.1, x.2.1.castSucc, x.2.2) c1) +
  ∑ x : Fin b × Fin (h + 2) × Fin (w + 1),
      pp (x.1, x.2.1, x.2.2.succ) c1 * pp (x.1, x.2.1, x.2.2.castSucc) c1

/-- The interaction term: `inter_sum` divided by `batch * Ly * Lx` (unpadded shape). -/
def inter_loss_term (y_pred : ClassT b h w n) (hn : 1 < n) : ℚ :=
  inter_sum y_pred hn / ((b : ℚ) * h * w)

/-- The count-mismatch term:
`N_diff = K.mean(y_pred[..., 1], axis=[1, 2]) - K.mean(y_true[..., 1], axis=[1, 2])`,
`N_loss = K.mean(K.square(N_diff))`. -/
def N_loss_term (y_true y_pred : ClassT b h w n) (hn : 1 < n) : ℚ :=
  let c1 : Fin n := ⟨1, hn⟩
  let N_diff := fun i =>
    meanHW (fun j k => y_pred (i, j, k) c1) - meanHW (fun j k => y_true (i, j, k) c1)
  meanB fun i => (N_diff i) ^ 2

/-- Method `DotNetLosses.classification_loss_regularized`: the base classification loss
(computed by the same focal / non-focal branch) plus `mu * N_loss + beta * inter_loss`. -/
def DotNetLosses.classification_loss_regularized (self : DotNetLosses)
    (weighted_focal_loss : ClassT b h w n → ClassT b h w n → ℚ → ℕ → ℚ)
    (weighted_categorical_crossentropy : ClassT b h w n → ClassT b h w n → ℕ → (Idx3 b h w → ℚ))
    (y_true y_pred : ClassT b h w n) (hn : 1 < n) : ℚ :=
  let loss :=
    if self.focal then weighted_focal_loss y_true y_pred self.gamma self.n_classes
    else meanBHW (weighted_categorical_crossentropy y_true y_pred self.n_classes)
  loss + self.mu * N_loss_term y_true y_pred hn + self.beta * inter_loss_term y_pred hn

/-- The selection set written the way the spec words it: ground-truth delta_y in
`[-d, d)` and ground-truth delta_x in `[-d, d)` (lower bound inclusive, upper
bound exclusive), collected over the whole batch. -/
def spec_selected (d : ℚ) (y_true : OffsetT b h w) : Finset (Idx3 b h w) :=
  Finset.univ.filter fun p =>
    (-d ≤ y_true p 0 ∧ y_true p 0 < d) ∧ (-d ≤ y_true p 1 ∧ y_true p 1 < d)

lemma sum_map_flatMap {α β M : Type*} [AddCommMonoid M] (l : List α) (f : α → List β)
    (g : β → M) : ((l.flatMap f).map g).sum = (l.map fun a => ((f a).map g).sum).sum := by
  induction l with
  | nil => rfl
  | cons a t ih => simp [List.flatMap_cons, ih]

lemma sum_map_all_indices {M : Type*} [AddCommMonoid M] (g : Idx3 b h w → M) :
    ((all_indices b h w).map g).sum = ∑ p : Idx3 b h w, g p := by
  simp only [all_indices, sum_map_flatMap, List.map_map]
  simp only [Fintype.sum_prod_type, Fin.sum_univ_def, List.map_map]
  rfl

lemma sum_map_filter {α M : Type*} [AddCommMonoid M] (l : List α) (q : α → Bool)
    (f : α → M) : ((l.filter q).map f).sum = (l.map fun a => if q a then f a else 0).sum := by
  induction l with
  | nil => rfl
  | cons a t ih => by_cases hq : q a <;> simp [List.filter_cons, hq, ih]

lemma sum_filter_all_indices {M : Type*} [AddCommMonoid M] (q : Idx3 b h w → Bool)
    (f : Idx3 b h w → M) :
    (((all_indices b h w).filter q).map f).sum =
      ∑ p in Finset.univ.filter (fun p => q p = true), f p := by
  rw [sum_map_filter, sum_map_all_indices, Finset.sum_filter]

lemma sum_map_one {α : Type*} (l : List α) : (l.map fun _ => (1 : ℕ)).sum = l.length := by
  induction l with
  | nil => rfl
  | cons a t ih => simp [ih, Nat.add_comm]

lemma length_filter_all_indices (q : Idx3 b h w → Bool) :
    ((all_indices b h w).filter q).length =
      (Finset.univ.filter (fun p => q p = true)).card := by
  rw [← sum_map_one ((all_indices b h w).filter q), sum_filter_all_indices,
    Finset.card_eq_sum_ones]

lemma spec_selected_eq_filter (d : ℚ) (y_true : OffsetT b h w) :
    Finset.univ.filter (fun p => near_pt d (y_true p 0) (y_true p 1) = true) =
      spec_selected d y_true := by
  unfold spec_selected
  apply Finset.filter_congr
  intro p _
  simp [near_pt]

/-- C1: `regression_loss` returns `S / max(1, n)` where a pixel is selected iff its
ground-truth delta_y and delta_x both lie in the half-open interval `[-(0.5 + d_pixels), 0.5 + d_pixels)`,
`n` is the number of selected pixels, and `S` is the sum over selected pixels of
the smooth L1 loss of the (true, predicted) delta_y pair plus that of the delta_x pair. -/
theorem regression_loss_eq_spec (self : DotNetLosses) (y_true y_pred : OffsetT b h w) :
    self.regression_loss y_true y_pred =
      (∑ p in spec_selected (0.5 + self.d_pixels) y_true,
        (smooth_l1 (y_true p 0) (y_pred p 0) self.sigma +
          smooth_l1 (y_true p 1) (y_pred p 1) self.sigma)) /
      ((max 1 (spec_selected (0.5 + self.d_pixels) y_true).card : ℕ) : ℚ) := by
  unfold DotNetLosses.regression_loss regression_loss_from_indices near_pt_indices
  dsimp only
  rw [List.sum_append, sum_filter_all_indices, sum_filter_all_indices,
    length_filter_all_indices, spec_selected_eq_filter, ← Finset.sum_add_distrib]

/-- C3: when no pixel satisfies the selection predicate, `regression_loss`
returns exactly 0 (the sum over the empty gather is 0 and the normalizer is
clamped to 1; in exact arithmetic no NaN or error can arise). -/
theorem regression_loss_empty_selection (self : DotNetLosses)
    (y_true y_pred : OffsetT b h w)
    (hempty : ∀ p : Idx3 b h w,
      near_pt (0.5 + self.d_pixels) (y_true p 0) (y_true p 1) = false) :
    self.regression_loss y_true y_pred = 0 := by
  have hnil : near_pt_indices (0.5 + self.d_pixels) y_true = [] := by
    unfold near_pt_indices
    rw [List.filter_eq_nil_iff]
    intro p _
    simp [hempty p]
  unfold DotNetLosses.regression_loss
  dsimp only
  rw [hnil]
  unfold regression_loss_from_indices
  simp

/-- C8: the scalar returned by `regression_loss` does not depend on the
enumeration order of the selected coordinates: feeding any permutation of the
collected index list through the gather / loss / normalize pipeline yields the
same value. -/
theorem regression_loss_perm_invariant (self : DotNetLosses)
    (y_true y_pred : OffsetT b h w) (l : List (Idx3 b h w))
    (hperm : l.Perm (near_pt_indices (0.5 + self.d_pixels) y_true)) :
    regression_loss_from_indices self.sigma y_true y_pred l =
      self.regression_loss y_true y_pred := by
  unfold DotNetLosses.regression_loss regression_loss_from_indices
  dsimp only
  rw [List.sum_append, List.sum_append,
    (hperm.map fun p => smooth_l1 (y_true p 0) (y_pred p 0) self.sigma).sum_eq,
    (hperm.map fun p => smooth_l1 (y_true p 1) (y_pred p 1) self.sigma).sum_eq,
    hperm.length_eq]

/-- C9: predicted values at unselected pixels have no influence: if two
prediction tensors agree (in both offset channels) at every pixel selected by
the ground-truth-based predicate, `regression_loss` returns the same value. -/
theorem regression_loss_ignores_unselected (self : DotNetLosses)
    (y_true y_pred y_pred' : OffsetT b h w)
    (hagree : ∀ p : Idx3 b h w,
      near_pt (0.5 + self.d_pixels) (y_true p 0) (y_true p 1) = true →
      ∀ c : Fin 2, y_pred p c = y_pred' p c) :
    self.regression_loss y_true y_pred = self.regression_loss y_true y_pred' := by
  have hmem : ∀ p ∈ near_pt_indices (0.5 + self.d_pixels) y_true,
      near_pt (0.5 + self.d_pixels) (y_true p 0) (y_true p 1) = true := by
    intro p hp
    exact (List.mem_filter.mp hp).2
  have h0 : (near_pt_indices (0.5 + self.d_pixels) y_true).map
        (fun p => smooth_l1 (y_true p 0) (y_pred p 0) self.sigma) =
      (near_pt_indices (0.5 + self.d_pixels) y_true).map
        (fun p => smooth_l1 (y_true p 0) (y_pred' p 0) self.sigma) :=
    List.map_congr_left fun p hp => by rw [hagree p (hmem p hp) 0]
  have h1 : (near_pt_indices (0.5 + self.d_pixels) y_true).map
        (fun p => smooth_l1 (y_true p 1) (y_pred p 1) self.sigma) =
      (near_pt_indices (0.5 + self.d_pixels) y_true).map
        (fun p => smooth_l1 (y_true p 1) (y_pred' p 1) self.sigma) :=
    List.map_congr_left fun p hp => by rw [hagree p (hmem p hp) 1]
  unfold DotNetLosses.regression_loss regression_loss_from_indices
  dsimp only
  rw [h0, h1]

/-- C2: for equal-shaped tensors and positive sigma, `smooth_l1` returns a tensor
of the same shape whose each element, with `s = sigma^2` and `r = |y_true - y_pred|`,
equals `0.5 * s * r^2` when `r < 1/s` and `r - 0.5/s` otherwise; no reduction
over any axis is applied (the result is indexed by the same index set as the inputs). -/
theorem smooth_l1_elementwise {ι : Type} (y_true y_pred : ι → ℚ) (sigma : ℚ)
    (_hsigma : 0 < sigma) (i : ι) :
    smooth_l1T y_true y_pred sigma i =
      (if |y_true i - y_pred i| < 1 / sigma ^ 2
        then 0.5 * sigma ^ 2 * |y_true i - y_pred i| ^ 2
        else |y_true i - y_pred i| - 0.5 / sigma ^ 2) := rfl

/-- C10: every element of the tensor returned by `smooth_l1` is nonnegative when
`sigma^2 > 0`: the quadratic branch is a square scaled by a positive constant, and
the linear branch is only taken when `r >= 1/s`, where it is at least `0.5/s > 0`. -/
theorem smooth_l1_nonneg {ι : Type} (y_true y_pred : ι → ℚ) (sigma : ℚ)
    (hs : 0 < sigma ^ 2) (i : ι) : 0 ≤ smooth_l1T y_true y_pred sigma i := by
  simp only [smooth_l1T, smooth_l1, quadBranch, linBranch]
  split_ifs with hlt
  · have h2 : (0 : ℚ) ≤ |y_true i - y_pred i| ^ 2 := sq_nonneg _
    have h05 : (0 : ℚ) ≤ 0.5 * sigma ^ 2 := by
      have : (0 : ℚ) ≤ 0.5 := by norm_num
      exact mul_nonneg this hs.le
    exact mul_nonneg h05 h2
  · have h1 : 1 / sigma ^ 2 ≤ |y_true i - y_pred i| := not_lt.mp hlt
    have h2 : (0.5 : ℚ) / sigma ^ 2 ≤ 1 / sigma ^ 2 := by
      gcongr
      norm_num
    linarith

/-- C5: the two branch formulas of `smooth_l1` agree at the transition point
`r = 1/sigma^2` both in value (each evaluates to `0.5/sigma^2`) and in first
derivative with respect to `r` (each evaluates to 1), over exact rational
arithmetic: the piecewise loss is continuous and C¹ at the branch boundary. -/
theorem smooth_l1_branch_matching (sigma : ℚ) (hsigma : 0 < sigma) :
    quadBranch (sigma ^ 2) (1 / sigma ^ 2) = 0.5 / sigma ^ 2 ∧
    linBranch (sigma ^ 2) (1 / sigma ^ 2) = 0.5 / sigma ^ 2 ∧
    HasDerivAt (quadBranch (sigma ^ 2)) 1 (1 / sigma ^ 2) ∧
    HasDerivAt (linBranch (sigma ^ 2)) 1 (1 / sigma ^ 2) := by
  have hs0 : sigma ^ 2 ≠ 0 := pow_ne_zero 2 (ne_of_gt hsigma)
  refine ⟨?_, ?_, ?_, ?_⟩
  · unfold quadBranch
    field_simp
    ring
  · unfold linBranch
    field_simp
    ring
  · have hq : quadBranch (sigma ^ 2) = fun r => 0.5 * sigma ^ 2 * r ^ 2 := rfl
    rw [hq]
    have h := (hasDerivAt_pow 2 (1 / sigma ^ 2)).const_mul (0.5 * sigma ^ 2)
    convert h using 1
    field_simp
    ring
  · have hl : linBranch (sigma ^ 2) = fun r => r - 0.5 / sigma ^ 2 := rfl
    rw [hl]
    exact (hasDerivAt_id _).sub_const _

/-- C4: with `mu = 0` and `beta = 0` (any focal flag, gamma, n_classes), the
regularized classification loss equals the plain classification loss exactly,
for every valid input pair and any external loss primitives. -/
theorem classification_loss_regularized_no_reg (self : DotNetLosses)
    (weighted_focal_loss : ClassT b h w n → ClassT b h w n → ℚ → ℕ → ℚ)
    (weighted_categorical_crossentropy :
      ClassT b h w n → ClassT b h w n → ℕ → (Idx3 b h w → ℚ))
    (y_true y_pred : ClassT b h w n) (hn : 1 < n)
    (hmu : self.mu = 0) (hbeta : self.beta = 0) :
    self.classification_loss_regularized weighted_focal_loss
        weighted_categorical_crossentropy y_true y_pred hn =
      self.classification_loss weighted_focal_loss
        weighted_categorical_crossentropy y_true y_pred := by
  unfold DotNetLosses.classification_loss_regularized DotNetLosses.classification_loss
  dsimp only
  rw [hmu, hbeta]
  ring

/-- C7: the count-mismatch term is exactly 0 whenever, for each image in the
batch, the spatial mean of the predicted spot-class channel equals the spatial
mean of the ground-truth spot-class channel, even when the channels differ
pointwise. -/
theorem N_loss_term_zero_of_equal_means (y_true y_pred : ClassT b h w n) (hn : 1 < n)
    (hmeans : ∀ i : Fin b,
      meanHW (fun j k => y_pred (i, j, k) ⟨1, hn⟩) =
        meanHW (fun j k => y_true (i, j, k) ⟨1, hn⟩)) :
    N_loss_term y_true y_pred hn = 0 := by
  unfold N_loss_term meanB
  dsimp only
  rw [Finset.sum_eq_zero fun i _ => by rw [hmeans i]; ring]
  simp

lemma spatial_2d_padding_interior (y : ClassT b h w n) (i : Fin b) (c : Fin n)
    (j k : ℕ) (hj : j < h) (hk : k < w) :
    spatial_2d_padding y (i, ⟨j + 1, by omega⟩, ⟨k + 1, by omega⟩) c =
      y (i, ⟨j, hj⟩, ⟨k, hk⟩) c := by
  unfold spatial_2d_padding
  dsimp only
  rw [dif_pos (by exact ⟨by omega, by omega, by omega, by omega⟩)]
  simp

lemma spatial_2d_padding_nonneg (y : ClassT b h w n) (c : Fin n)
    (hy : ∀ p : Idx3 b h w, 0 ≤ y p c) (q : Fin b × Fin (h + 2) × Fin (w + 2)) :
    0 ≤ spatial_2d_padding y q c := by
  unfold spatial_2d_padding
  split
  · exact hy _
  · exact le_refl 0

lemma spatial_2d_padding_eq_zero (y : ClassT b h w n) (c : Fin n)
    (hy : ∀ p : Idx3 b h w, y p c = 0) (q : Fin b × Fin (h + 2) × Fin (w + 2)) :
    spatial_2d_padding y q c = 0 := by
  unfold spatial_2d_padding
  split
  · exact hy _
  · rfl

/-- C6: for a prediction tensor whose spot-class channel is everywhere
nonnegative, the interaction term is exactly 0 when that channel is entirely
zero, and strictly positive when two 4-adjacent pixels of the same image
(vertically or horizontally adjacent) both have strictly positive spot-class
values. -/
theorem inter_loss_term_sign (y_pred : ClassT b h w n) (hn : 1 < n)
    (hnonneg : ∀ p : Idx3 b h w, 0 ≤ y_pred p ⟨1, hn⟩) :
    ((∀ p : Idx3 b h w, y_pred p ⟨1, hn⟩ = 0) → inter_loss_term y_pred hn = 0) ∧
    (((∃ (i : Fin b) (j j' : Fin h) (k : Fin w), (j' : ℕ) = (j : ℕ) + 1 ∧
          0 < y_pred (i, j, k) ⟨1, hn⟩ ∧ 0 < y_pred (i, j', k) ⟨1, hn⟩) ∨
        (∃ (i : Fin b) (j : Fin h) (k k' : Fin w), (k' : ℕ) = (k : ℕ) + 1 ∧
          0 < y_pred (i, j, k) ⟨1, hn⟩ ∧ 0 < y_pred (i, j, k') ⟨1, hn⟩)) →
      0 < inter_loss_term y_pred hn) := by
  have hpadnn := spatial_2d_padding_nonneg y_pred ⟨1, hn⟩ hnonneg
  constructor
  · intro hzero
    unfold inter_loss_term inter_sum
    dsimp only
    simp only [spatial_2d_padding_eq_zero y_pred ⟨1, hn⟩ hzero, mul_zero, zero_mul,
      Finset.sum_const_zero, add_zero, zero_div]
  · intro hadj
    have hsum1nn : 0 ≤ ∑ x : Fin b × Fin (h + 1) × Fin (w + 2),
        spatial_2d_padding y_pred (x.1, x.2.1.succ, x.2.2) ⟨1, hn⟩ *
          spatial_2d_padding y_pred (x.1, x.2.1.castSucc, x.2.2) ⟨1, hn⟩ :=
      Finset.sum_nonneg fun x _ => mul_nonneg (hpadnn _) (hpadnn _)
    have hsum2nn : 0 ≤ ∑ x : Fin b × Fin (h + 2) × Fin (w + 1),
        spatial_2d_padding y_pred (x.1, x.2.1, x.2.2.succ) ⟨1, hn⟩ *
          spatial_2d_padding y_pred (x.1, x.2.1, x.2.2.castSucc) ⟨1, hn⟩ :=
      Finset.sum_nonneg fun x _ => mul_nonneg (hpadnn _) (hpadnn _)
    have hb : 0 < b := by
      rcases hadj with ⟨i, _⟩ | ⟨i, _⟩ <;> exact i.pos
    have hh : 0 < h := by
      rcases hadj with ⟨_, j, _⟩ | ⟨_, j, _⟩ <;> exact j.pos
    have hw : 0 < w := by
      rcases hadj with ⟨_, _, _, k, _⟩ | ⟨_, _, k, _⟩ <;> exact k.pos
    have hsum_pos : 0 < inter_sum y_pred hn := by
      unfold inter_sum
      dsimp only
      rcases hadj with ⟨i, j, j', k, hjj', h1, h2⟩ | ⟨i, j, k, k', hkk', h1, h2⟩
      · have hj1 : (j : ℕ) + 1 < h := by
          have := j'.isLt
          omega
        apply add_pos_of_pos_of_nonneg ?_ hsum2nn
        apply Finset.sum_pos'
        · exact fun x _ => mul_nonneg (hpadnn _) (hpadnn _)
        · refine ⟨(i, ⟨(j : ℕ) + 1, by omega⟩, ⟨(k : ℕ) + 1, by omega⟩),
            Finset.mem_univ _, ?_⟩
          dsimp only
          simp only [Fin.succ_mk, Fin.castSucc_mk]
          rw [spatial_2d_padding_interior y_pred i ⟨1, hn⟩ ((j : ℕ) + 1) (k : ℕ) hj1 k.isLt,
            spatial_2d_padding_interior y_pred i ⟨1, hn⟩ (j : ℕ) (k : ℕ) j.isLt k.isLt]
          have ej : (⟨(j : ℕ) + 1, hj1⟩ : Fin h) = j' := by
            apply Fin.ext
            simp [hjj']
          have ej0 : (⟨(j : ℕ), j.isLt⟩ : Fin h) = j := Fin.ext rfl
          have ek : (⟨(k : ℕ), k.isLt⟩ : Fin w) = k := Fin.ext rfl
          rw [ej, ej0, ek]
          exact mul_pos h2 h1
      · have hk1 : (k : ℕ) + 1 < w := by
          have := k'.isLt
          omega
        apply add_pos_of_nonneg_of_pos hsum1nn
        apply Finset.sum_pos'
        · exact fun x _ => mul_nonneg (hpadnn _) (hpadnn _)
        · refine ⟨(i, ⟨(j : ℕ) + 1, by omega⟩, ⟨(k : ℕ) + 1, by omega⟩),
            Finset.mem_univ _, ?_⟩
          dsimp only
          simp only [Fin.succ_mk, Fin.castSucc_mk]
          rw [spatial_2d_padding_interior y_pred i ⟨1, hn⟩ (j : ℕ) ((k : ℕ) + 1) j.isLt hk1,
            spatial_2d_padding_interior y_pred i ⟨1, hn⟩ (j : ℕ) (k : ℕ) j.isLt k.isLt]
          have ek : (⟨(k : ℕ) + 1, hk1⟩ : Fin w) = k' := by
            apply Fin.ext
            simp [hkk']
          have ej0 : (⟨(j : ℕ), j.isLt⟩ : Fin h) = j := Fin.ext rfl
          have ek0 : (⟨(k : ℕ), k.isLt⟩ : Fin w) = k := Fin.ext rfl
          rw [ek, ej0, ek0]
          exact mul_pos h2 h1
    have hbhw : (0 : ℚ) < (b : ℚ) * h * w := by
      have hb' : (0 : ℚ) < b := by exact_mod_cast hb
      have hh' : (0 : ℚ) < h := by exact_mod_cast hh
      have hw' : (0 : ℚ) < w := by exact_mod_cast hw
      exact mul_pos (mul_pos hb' hh') hw'
    exact div_pos hsum_pos hbhw

def ytW2 : Fin 1 → ℚ := fun _ => 0

def ypW2 : Fin 1 → ℚ := fun _ => 2

/-- Witness for C2 at sigma = 3 on a concrete one-element tensor pair. -/
theorem smooth_l1_elementwise_witness :
    (0 : ℚ) < 3 ∧
      smooth_l1T ytW2 ypW2 3 0 =
        (if |ytW2 0 - ypW2 0| < 1 / 3 ^ 2 then 0.5 * 3 ^ 2 * |ytW2 0 - ypW2 0| ^ 2
          else |ytW2 0 - ypW2 0| - 0.5 / 3 ^ 2) :=
  ⟨by decide, smooth_l1_elementwise ytW2 ypW2 3 (by decide) 0⟩

def cfgW3 : DotNetLosses := {}

def ytW3 : OffsetT 1 1 1 := fun _ _ => 10

def ypW3 : OffsetT 1 1 1 := fun _ _ => 0

/-- Witness for C3: all ground-truth offsets far outside the radius. -/
theorem regression_loss_empty_selection_witness :
    (∀ p : Idx3 1 1 1, near_pt (0.5 + cfgW3.d_pixels) (ytW3 p 0) (ytW3 p 1) = false) ∧
      cfgW3.regression_loss ytW3 ypW3 = 0 :=
  ⟨by with_unfolding_all decide,
    regression_loss_empty_selection cfgW3 ytW3 ypW3 (by with_unfolding_all decide)⟩

def wflW4 : ClassT 1 1 1 2 → ClassT 1 1 1 2 → ℚ → ℕ → ℚ := fun _ _ _ _ => 7

def wcceW4 : ClassT 1 1 1 2 → ClassT 1 1 1 2 → ℕ → (Idx3 1 1 1 → ℚ) := fun _ _ _ _ => 5

def cfgW4 : DotNetLosses := {}

def ytW4 : ClassT 1 1 1 2 := fun _ c => if c = 1 then 1 else 0

def ypW4 : ClassT 1 1 1 2 := fun _ c => if c = 0 then 1 else 0

/-- Witness for C4 with the default configuration (mu = 0, beta = 0). -/
theorem classification_loss_regularized_no_reg_witness :
    cfgW4.mu = 0 ∧ cfgW4.beta = 0 ∧
      cfgW4.classification_loss_regularized wflW4 wcceW4 ytW4 ypW4 one_lt_two =
        cfgW4.classification_loss wflW4 wcceW4 ytW4 ypW4 :=
  ⟨rfl, rfl,
    classification_loss_regularized_no_reg cfgW4 wflW4 wcceW4 ytW4 ypW4 one_lt_two rfl rfl⟩

/-- Witness for C5 at sigma = 3. -/
theorem smooth_l1_branch_matching_witness :
    (0 : ℚ) < 3 ∧
      (quadBranch ((3 : ℚ) ^ 2) (1 / 3 ^ 2) = 0.5 / 3 ^ 2 ∧
        linBranch ((3 : ℚ) ^ 2) (1 / 3 ^ 2) = 0.5 / 3 ^ 2 ∧
        HasDerivAt (quadBranch ((3 : ℚ) ^ 2)) 1 (1 / 3 ^ 2) ∧
        HasDerivAt (linBranch ((3 : ℚ) ^ 2)) 1 (1 / 3 ^ 2)) :=
  ⟨by decide, smooth_l1_branch_matching 3 (by decide)⟩

def ypW6 : ClassT 1 2 1 2 := fun _ c => if c = 1 then 1 else 0

/-- Witness for C6: a 2x1 image whose two vertically adjacent pixels both carry
positive spot-class values, giving a strictly positive interaction term. -/
theorem inter_loss_term_sign_witness :
    (∀ p : Idx3 1 2 1, 0 ≤ ypW6 p ⟨1, one_lt_two⟩) ∧
      0 < inter_loss_term ypW6 one_lt_two :=
  ⟨by with_unfolding_all decide,
    (inter_loss_term_sign ypW6 one_lt_two (by with_unfolding_all decide)).2
      (Or.inl (by with_unfolding_all decide))⟩

def ytW7 : ClassT 1 1 2 2 := fun p c => if c = 1 ∧ (p.2.2 : ℕ) = 0 then 1 else 0

def ypW7 : ClassT 1 1 2 2 := fun p c => if c = 1 ∧ (p.2.2 : ℕ) = 1 then 1 else 0

/-- Witness for C7: pointwise-different spot-class channels with equal spatial means. -/
theorem N_loss_term_zero_of_equal_means_witness :
    (∀ i : Fin 1, meanHW (fun j k => ypW7 (i, j, k) ⟨1, one_lt_two⟩) =
        meanHW (fun j k => ytW7 (i, j, k) ⟨1, one_lt_two⟩)) ∧
      N_loss_term ytW7 ypW7 one_lt_two = 0 :=
  ⟨by with_unfolding_all decide,
    N_loss_term_zero_of_equal_means ytW7 ypW7 one_lt_two (by with_unfolding_all decide)⟩

def cfgW8 : DotNetLosses := {}

def ytW8 : OffsetT 1 1 2 := fun _ _ => 0

def ypW8 : OffsetT 1 1 2 := fun p _ => if (p.2.2 : ℕ) = 0 then 1 else 2

def lW8 : List (Idx3 1 1 2) := [(0, 0, 1), (0, 0, 0)]

/-- Witness for C8: the reversed index list produces the same loss. -/
theorem regression_loss_perm_invariant_witness :
    lW8.Perm (near_pt_indices (0.5 + cfgW8.d_pixels) ytW8) ∧
      regression_loss_from_indices cfgW8.sigma ytW8 ypW8 lW8 =
        cfgW8.regression_loss ytW8 ypW8 :=
  ⟨by with_unfolding_all decide,
    regression_loss_perm_invariant cfgW8 ytW8 ypW8 lW8 (by with_unfolding_all decide)⟩

def cfgW9 : DotNetLosses := {}

def ytW9 : OffsetT 1 1 2 := fun p _ => if (p.2.2 : ℕ) = 0 then 0 else 10

def ypW9 : OffsetT 1 1 2 := fun p _ => if (p.2.2 : ℕ) = 0 then 1 else 5

def ypW9' : OffsetT 1 1 2 := fun p _ => if (p.2.2 : ℕ) = 0 then 1 else -3

/-- Witness for C9: two predictions differing only at an unselected pixel. -/
theorem regression_loss_ignores_unselected_witness :
    (∀ p : Idx3 1 1 2, near_pt (0.5 + cfgW9.d_pixels) (ytW9 p 0) (ytW9 p 1) = true →
        ∀ c : Fin 2, ypW9 p c = ypW9' p c) ∧
      cfgW9.regression_loss ytW9 ypW9 = cfgW9.regression_loss ytW9 ypW9' :=
  ⟨by with_unfolding_all decide,
    regression_loss_ignores_unselected cfgW9 ytW9 ypW9 ypW9' (by with_unfolding_all decide)⟩

def ytW10 : Fin 1 → ℚ := fun _ => 0

def ypW10 : Fin 1 → ℚ := fun _ => 5

/-- Witness for C10 at sigma = 3 on a concrete pair falling in the linear branch. -/
theorem smooth_l1_nonneg_witness :
    (0 : ℚ) < 3 ^ 2 ∧ 0 ≤ smooth_l1T ytW10 ypW10 3 0 :=
  ⟨by decide, smooth_l1_nonneg ytW10 ypW10 3 (by decide) 0⟩

end DeepcellSpots
